import Mathlib

/-
Verification of the AVL tree implementation in src/include/avl.hpp.

The C++ class AVL<T> stores nodes with a data field, two owned child
pointers and a cached integer height.  We embed trees as an inductive
type whose node constructor carries the cached height verbatim; a null
pointer becomes the constructor nil.  Machine int heights stay well
inside 32 bits for any reachable tree, so they are modelled as Int.
The element type T is any linear order, as required by the template
(operators ==, < and >).
-/

namespace AVL

/-- A tree node as in struct TreeNode: data, left, right, cached height.
nil models the null pointer. -/
inductive Tree (α : Type) where
  | nil : Tree α
  | node (data : α) (left : Tree α) (right : Tree α) (height : Int) : Tree α
deriving Repr, DecidableEq

variable {α : Type} [LinearOrder α]

/-- height(node): the cached height, or -1 for null (avl.hpp lines 227-230). -/
def heightOf : Tree α → Int
  | .nil => -1
  | .node _ _ _ h => h

/-- The left child of a node (nil for nil, matching a read through a null
pointer being undefined in C++; only ever applied to non-null nodes on
reachable executions). -/
def leftT : Tree α → Tree α
  | .nil => .nil
  | .node _ l _ _ => l

/-- The right child of a node. -/
def rightT : Tree α → Tree α
  | .nil => .nil
  | .node _ _ r _ => r

/-- The data stored at the root, if any. -/
def rootData : Tree α → Option α
  | .nil => none
  | .node d _ _ _ => some d

/-- In-order traversal (avl.hpp lines 398-411). -/
def inOrder : Tree α → List α
  | .nil => []
  | .node d l r _ => inOrder l ++ d :: inOrder r

/-- Pre-order traversal (avl.hpp lines 413-426). -/
def preOrder : Tree α → List α
  | .nil => []
  | .node d l r _ => d :: (preOrder l ++ preOrder r)

/-- contain (avl.hpp lines 356-362). -/
def contain : Tree α → α → Bool
  | .nil, _ => false
  | .node d l r _, v =>
    if v = d then true
    else if v < d then contain l v
    else contain r v

/-- TreeNode::min (avl.hpp lines 303-309): follow left pointers from a node
with data d and left child l; returns the data of the leftmost node. -/
def treeMin (d : α) : Tree α → α
  | .nil => d
  | .node d2 l2 _ _ => treeMin d2 l2

/-- The double-rotation pre-step on the left child (avl.hpp lines 240-248):
leftChild.right becomes leftRightChild.left, leftRightChild.left becomes
leftChild, and the slot is rebound to leftRightChild.  Heights are not
touched here, exactly as in the source.  If the shape does not match,
the C++ would dereference null; the fallthrough returns the input. -/
def rotLchild : Tree α → Tree α
  | .node ld ll (.node lrd lrl lrr lrh) lh => .node lrd (.node ld ll lrl lh) lrr lrh
  | t => t

/-- The double-rotation pre-step on the right child (avl.hpp lines 262-270). -/
def rotRchild : Tree α → Tree α
  | .node rd (.node rld rll rlr rlh) rr rh => .node rld rll (.node rd rlr rr rh) rlh
  | t => t

/-- Simple right rotation of a node with fields d l r h (avl.hpp lines
249-258): node.left becomes leftChild.right, leftChild.right becomes node,
then the height of node and then of leftChild are recomputed from the
cached heights of their new children, and the slot is rebound to
leftChild.  A nil left child would be a null dereference in the source. -/
def rotRight (d : α) (l r : Tree α) (h : Int) : Tree α :=
  match l with
  | .nil => .node d l r h
  | .node ld ll lr _ =>
    let nh := max (heightOf lr) (heightOf r) + 1
    .node ld ll (.node d lr r nh) (max (heightOf ll) nh + 1)

/-- Simple left rotation (avl.hpp lines 271-280), mirror image of rotRight. -/
def rotLeft (d : α) (l r : Tree α) (h : Int) : Tree α :=
  match r with
  | .nil => .node d l r h
  | .node rd rl rr _ =>
    let nh := max (heightOf l) (heightOf rl) + 1
    .node rd (.node d l rl nh) rr (max nh (heightOf rr) + 1)

/-- balance (avl.hpp lines 232-284): compute the balance factor from the
cached heights; if above 1 do a right rotation, preceded by the left-right
double pre-step when height(left.right) > height(left.left); if below -1
the mirror image; otherwise only refresh the cached height of the node. -/
def balance : Tree α → Tree α
  | .nil => .nil
  | .node d l r h =>
    if heightOf l - heightOf r > 1 then
      rotRight d (if heightOf (rightT l) > heightOf (leftT l) then rotLchild l else l) r h
    else if heightOf l - heightOf r < -1 then
      rotLeft d l (if heightOf (leftT r) > heightOf (rightT r) then rotRchild r else r) h
    else .node d l r (max (heightOf l) (heightOf r) + 1)

/-- The common epilogue of insert and remove (avl.hpp lines 349-352 and
391-394): when the node still exists, recompute its cached height from its
children and call balance on it. -/
def fixup : Tree α → Tree α
  | .nil => .nil
  | .node d l r _ => balance (.node d l r (max (heightOf l) (heightOf r) + 1))

/-- insert (avl.hpp lines 334-354).  A fresh leaf carries cached height 1,
exactly as the TreeNode constructor initialises it (avl.hpp line 287).
Returns the pair (inserted, updated subtree). -/
def insertAux : Tree α → α → Bool × Tree α
  | .nil, v => (true, .node v .nil .nil 1)
  | .node d l r h, v =>
    if v = d then (false, .node d l r h)
    else if v < d then
      match insertAux l v with
      | (true, l2) => (true, balance (.node d l2 r (max (heightOf l2) (heightOf r) + 1)))
      | (false, l2) => (false, .node d l2 r h)
    else
      match insertAux r v with
      | (true, r2) => (true, balance (.node d l r2 (max (heightOf l) (heightOf r2) + 1)))
      | (false, r2) => (false, .node d l r2 h)

/-- remove (avl.hpp lines 364-396).  Descend by comparison; at the node
holding the value: with a missing child, rebind the slot to the other
child (then the epilogue runs on the replacement when it is not null);
with two children, copy the data of the in-order successor (minimum of
the right subtree) into the node and remove that value from the right
subtree.  Returns the pair (removed, updated subtree). -/
def removeAux : Tree α → α → Bool × Tree α
  | .nil, _ => (false, .nil)
  | .node d l r h, v =>
    if v < d then
      let p := removeAux l v
      (p.1, if p.1 then fixup (.node d p.2 r h) else .node d p.2 r h)
    else if d < v then
      let p := removeAux r v
      (p.1, if p.1 then fixup (.node d l p.2 h) else .node d l p.2 h)
    else
      match l, r with
      | .nil, _ => (true, fixup r)
      | .node ld ll lr lh, .nil => (true, fixup (.node ld ll lr lh))
      | .node ld ll lr lh, .node rd rl rr rh =>
        let s := treeMin rd rl
        (true, fixup (.node s (.node ld ll lr lh)
          (removeAux (.node rd rl rr rh) s).2 h))

/-- is_balanced recursive helper (avl.hpp lines 210-221): returns the pair
(balanced, structural height), ignoring cached heights entirely. -/
def is_balanced_aux : Tree α → Bool × Int
  | .nil => (true, -1)
  | .node _ l r _ =>
    let pl := is_balanced_aux l
    let pr := is_balanced_aux r
    (pl.1 && pr.1 && decide ((pl.2 - pr.2).natAbs ≤ 1), 1 + max pl.2 pr.2)

/-- is_balanced (avl.hpp line 201). -/
def is_balanced (t : Tree α) : Bool := (is_balanced_aux t).1

/-- One public mutating call on the tree handle. -/
inductive Op (α : Type) where
  | ins (v : α) : Op α
  | rem (v : α) : Op α
deriving Repr, DecidableEq

/-- Effect of one public call on the root (avl.hpp lines 319-327). -/
def applyOp (t : Tree α) : Op α → Tree α
  | .ins v => (insertAux t v).2
  | .rem v => (removeAux t v).2

/-- The tree after a sequence of public insert and remove calls starting
from the empty tree (constructor, avl.hpp lines 311-312). -/
def run (ops : List (Op α)) : Tree α := ops.foldl applyOp .nil

/-- A tree state is reachable when some sequence of public insert and
remove calls starting from the empty tree produces it. -/
def Reachable (t : Tree α) : Prop := ∃ ops : List (Op α), run ops = t

/-- The stored-height formula of the specification: every node caches
1 + max of the cached heights of its children, a missing subtree counting
as -1.  Boolean so that concrete states can be checked by evaluation. -/
def heightsOk [DecidableEq α] : Tree α → Bool
  | .nil => true
  | .node _ l r h => (h = 1 + max (heightOf l) (heightOf r) : Bool) && heightsOk l && heightsOk r

/-- All values in the tree satisfy a predicate. -/
def AllTree (p : α → Prop) : Tree α → Prop
  | .nil => True
  | .node d l r _ => p d ∧ AllTree p l ∧ AllTree p r

/-- The binary-search-tree ordering property: at every node, all values of
the left subtree are strictly below the data and all values of the right
subtree strictly above. -/
def IsBST : Tree α → Prop
  | .nil => True
  | .node d l r _ => AllTree (fun x => x < d) l ∧ AllTree (fun x => d < x) r ∧ IsBST l ∧ IsBST r

/-- List-level model of insertion into a sorted list without duplicates:
insert v before the first larger element, or do nothing when v is present. -/
def insList (v : α) : List α → List α
  | [] => [v]
  | x :: xs => if v = x then x :: xs else if v < x then v :: x :: xs else x :: insList v xs

/-- List-level model of deletion: drop the first occurrence of v. -/
def delList (v : α) : List α → List α
  | [] => []
  | x :: xs => if v = x then xs else x :: delList v xs

/-- Which rotation a call to balance performs. -/
inductive Rot where
  | singleLeft : Rot
  | singleRight : Rot
  | doubleLR : Rot
  | doubleRL : Rot
deriving Repr, DecidableEq

/-- balance instrumented to also report the rotation it performs, if any.
Identical control flow to balance. -/
def balanceT : Tree α → Tree α × Option Rot
  | .nil => (.nil, none)
  | .node d l r h =>
    if heightOf l - heightOf r > 1 then
      if heightOf (rightT l) > heightOf (leftT l) then
        (rotRight d (rotLchild l) r h, some Rot.doubleLR)
      else (rotRight d l r h, some Rot.singleRight)
    else if heightOf l - heightOf r < -1 then
      if heightOf (leftT r) > heightOf (rightT r) then
        (rotLeft d l (rotRchild r) h, some Rot.doubleRL)
      else (rotLeft d l r h, some Rot.singleLeft)
    else (.node d l r (max (heightOf l) (heightOf r) + 1), none)

/-- insert instrumented to collect the rotations performed during the call,
each tagged with the depth of the node it rebalances (0 = the root of the
whole tree).  Events are listed in the order they happen (bottom-up). -/
def insertAuxT : Tree α → α → Bool × Tree α × List (Nat × Rot)
  | .nil, v => (true, .node v .nil .nil 1, [])
  | .node d l r h, v =>
    if v = d then (false, .node d l r h, [])
    else if v < d then
      match insertAuxT l v with
      | (true, l2, es) =>
        match balanceT (.node d l2 r (max (heightOf l2) (heightOf r) + 1)) with
        | (t2, some rot) => (true, t2, es.map (fun p => (p.1 + 1, p.2)) ++ [(0, rot)])
        | (t2, none) => (true, t2, es.map (fun p => (p.1 + 1, p.2)))
      | (false, l2, es) => (false, .node d l2 r h, es.map (fun p => (p.1 + 1, p.2)))
    else
      match insertAuxT r v with
      | (true, r2, es) =>
        match balanceT (.node d l r2 (max (heightOf l) (heightOf r2) + 1)) with
        | (t2, some rot) => (true, t2, es.map (fun p => (p.1 + 1, p.2)) ++ [(0, rot)])
        | (t2, none) => (true, t2, es.map (fun p => (p.1 + 1, p.2)))
      | (false, r2, es) => (false, .node d l r2 h, es.map (fun p => (p.1 + 1, p.2)))

/-- Run a sequence of inserts, concatenating the rotation events. -/
def insRunT : Tree α → List α → Tree α × List (Nat × Rot)
  | t, [] => (t, [])
  | t, v :: vs =>
    match insertAuxT t v with
    | (_, t2, es) =>
      match insRunT t2 vs with
      | (t3, es2) => (t3, es ++ es2)

/-- Number of insert calls returning true along a run from state t. -/
def succIns : Tree α → List (Op α) → Nat
  | _, [] => 0
  | t, op :: ops =>
    (match op with
     | .ins v => if (insertAux t v).1 then 1 else 0
     | .rem _ => 0) + succIns (applyOp t op) ops

/-- Number of remove calls returning true along a run from state t. -/
def succRem : Tree α → List (Op α) → Nat
  | _, [] => 0
  | t, op :: ops =>
    (match op with
     | .ins _ => 0
     | .rem v => if (removeAux t v).1 then 1 else 0) + succRem (applyOp t op) ops

/-! Rotations and balance preserve the in-order traversal. -/

theorem inOrder_rotLchild (t : Tree α) : inOrder (rotLchild t) = inOrder t := by
  cases t with
  | nil => rfl
  | node d l r h =>
    cases r with
    | nil => rfl
    | node rd rl rr rh => simp [rotLchild, inOrder, List.append_assoc]

theorem inOrder_rotRchild (t : Tree α) : inOrder (rotRchild t) = inOrder t := by
  cases t with
  | nil => rfl
  | node d l r h =>
    cases l with
    | nil => rfl
    | node ld ll lr lh => simp [rotRchild, inOrder, List.append_assoc]

theorem inOrder_rotRight (d : α) (l r : Tree α) (h : Int) :
    inOrder (rotRight d l r h) = inOrder l ++ d :: inOrder r := by
  cases l with
  | nil => rfl
  | node ld ll lr lh => simp [rotRight, inOrder, List.append_assoc]

theorem inOrder_rotLeft (d : α) (l r : Tree α) (h : Int) :
    inOrder (rotLeft d l r h) = inOrder l ++ d :: inOrder r := by
  cases r with
  | nil => rfl
  | node rd rl rr rh => simp [rotLeft, inOrder, List.append_assoc]

theorem inOrder_balance (t : Tree α) : inOrder (balance t) = inOrder t := by
  cases t with
  | nil => rfl
  | node d l r h =>
    simp only [balance]
    split_ifs <;>
      simp [inOrder_rotRight, inOrder_rotLeft, inOrder_rotLchild, inOrder_rotRchild, inOrder]

theorem inOrder_fixup (t : Tree α) : inOrder (fixup t) = inOrder t := by
  cases t with
  | nil => rfl
  | node d l r h => simp [fixup, inOrder_balance, inOrder]

/-! The boolean returned by insert, and the no-op behaviour on duplicates. -/

theorem insertAux_fst (t : Tree α) (v : α) : (insertAux t v).1 = !(contain t v) := by
  induction t with
  | nil => rfl
  | node d l r h ihl ihr =>
    simp only [insertAux, contain]
    split_ifs with h1 h2
    · simp
    · rcases hp : insertAux l v with ⟨b, l2⟩
      rw [hp] at ihl
      cases b <;> simp_all
    · rcases hp : insertAux r v with ⟨b, r2⟩
      rw [hp] at ihr
      cases b <;> simp_all

theorem insertAux_of_contain (t : Tree α) (v : α) (hc : contain t v = true) :
    insertAux t v = (false, t) := by
  induction t with
  | nil => simp [contain] at hc
  | node d l r h ihl ihr =>
    simp only [contain] at hc
    simp only [insertAux]
    split_ifs with h1 h2
    · rfl
    · rw [if_neg h1, if_pos h2] at hc
      rw [ihl hc]
    · rw [if_neg h1, if_neg h2] at hc
      rw [ihr hc]

theorem mem_of_contain (t : Tree α) (v : α) (hc : contain t v = true) : v ∈ inOrder t := by
  induction t with
  | nil => simp [contain] at hc
  | node d l r h ihl ihr =>
    simp only [contain] at hc
    split_ifs at hc with h1 h2
    · simp [inOrder, h1]
    · simp [inOrder, ihl hc]
    · simp [inOrder, ihr hc]

/-! Decomposing sortedness of the traversal of a node. -/

theorem sorted_node (d : α) (l r : Tree α) (h : Int)
    (hs : List.Sorted (· < ·) (inOrder (Tree.node d l r h))) :
    List.Sorted (· < ·) (inOrder l) ∧ List.Sorted (· < ·) (inOrder r) ∧
      (∀ x ∈ inOrder l, x < d) ∧ (∀ y ∈ inOrder r, d < y) := by
  simp only [inOrder] at hs
  rw [List.Sorted, List.pairwise_append] at hs
  obtain ⟨h1, h2, h3⟩ := hs
  rw [List.pairwise_cons] at h2
  refine ⟨h1, h2.2, fun x hx => h3 x hx d (by simp), h2.1⟩

theorem contain_iff_mem (t : Tree α) (v : α) (hs : List.Sorted (· < ·) (inOrder t)) :
    contain t v = true ↔ v ∈ inOrder t := by
  induction t with
  | nil => simp [contain, inOrder]
  | node d l r h ihl ihr =>
    obtain ⟨sl, sr, hl, hr⟩ := sorted_node d l r h hs
    simp only [contain, inOrder, List.mem_append, List.mem_cons]
    split_ifs with h1 h2
    · simp [h1]
    · rw [ihl sl]
      constructor
      · exact fun hm => Or.inl hm
      · rintro (hm | hm | hm)
        · exact hm
        · exact absurd hm h1
        · exact absurd (hr v hm) (by simp [asymm h2, not_lt_of_gt h2])
    · have h3 : d < v := lt_of_le_of_ne (not_lt.mp h2) (Ne.symm h1)
      rw [ihr sr]
      constructor
      · exact fun hm => Or.inr (Or.inr hm)
      · rintro (hm | hm | hm)
        · exact absurd (hl v hm) (not_lt_of_gt h3)
        · exact absurd hm h1
        · exact hm

/-! Lemmas about the list-level models insList and delList. -/

theorem mem_insList (v y : α) (xs : List α) :
    y ∈ insList v xs ↔ y = v ∨ y ∈ xs := by
  induction xs with
  | nil => simp [insList]
  | cons x xs ih =>
    simp only [insList]
    split_ifs with h1 h2
    · subst h1
      simp only [List.mem_cons]
      tauto
    · simp only [List.mem_cons]
    · simp only [List.mem_cons, ih]
      tauto

theorem sorted_insList (v : α) (xs : List α) (hs : List.Sorted (· < ·) xs) :
    List.Sorted (· < ·) (insList v xs) := by
  induction xs with
  | nil => simp [insList]
  | cons x xs ih =>
    rw [List.sorted_cons] at hs
    obtain ⟨hx, hxs⟩ := hs
    simp only [insList]
    split_ifs with h1 h2
    · exact List.sorted_cons.mpr ⟨hx, hxs⟩
    · rw [List.sorted_cons]
      refine ⟨fun b hb => ?_, List.sorted_cons.mpr ⟨hx, hxs⟩⟩
      rcases List.mem_cons.mp hb with rfl | hb
      · exact h2
      · exact h2.trans (hx b hb)
    · rw [List.sorted_cons]
      refine ⟨fun b hb => ?_, ih hxs⟩
      rcases (mem_insList v b xs).mp hb with rfl | hb
      · exact lt_of_le_of_ne (not_lt.mp h2) (Ne.symm h1)
      · exact hx b hb

theorem insList_append_lt (v d : α) (xs ys : List α) (hvd : v < d) :
    insList v (xs ++ d :: ys) = insList v xs ++ d :: ys := by
  induction xs with
  | nil =>
    simp only [List.nil_append, insList]
    rw [if_neg (ne_of_lt hvd), if_pos hvd]
    rfl
  | cons x xs ih =>
    simp only [List.cons_append, insList, List.append_eq]
    split_ifs <;> simp [ih]

theorem insList_append_gt (v d : α) (xs ys : List α) (hdv : d < v)
    (hxs : ∀ x ∈ xs, x < v) :
    insList v (xs ++ d :: ys) = xs ++ d :: insList v ys := by
  induction xs with
  | nil =>
    simp only [List.nil_append, insList]
    rw [if_neg (ne_of_gt hdv), if_neg (not_lt.mpr hdv.le)]
  | cons x xs ih =>
    have hx : x < v := hxs x (by simp)
    simp only [List.cons_append, insList, List.append_eq]
    rw [if_neg (ne_of_gt hx), if_neg (not_lt.mpr hx.le),
      ih (fun y hy => hxs y (by simp [hy]))]

theorem insList_append_self (v : α) (xs ys : List α) (hxs : ∀ x ∈ xs, x < v) :
    insList v (xs ++ v :: ys) = xs ++ v :: ys := by
  induction xs with
  | nil => simp [insList]
  | cons x xs ih =>
    have hx : x < v := hxs x (by simp)
    simp only [List.cons_append, insList, List.append_eq]
    rw [if_neg (ne_of_gt hx), if_neg (not_lt.mpr hx.le),
      ih (fun y hy => hxs y (by simp [hy]))]

theorem insList_of_mem (v : α) (xs : List α) (hs : List.Sorted (· < ·) xs) (hm : v ∈ xs) :
    insList v xs = xs := by
  induction xs with
  | nil => cases hm
  | cons x xs ih =>
    rw [List.sorted_cons] at hs
    rcases List.mem_cons.mp hm with rfl | hm
    · simp [insList]
    · have hx : x < v := hs.1 v hm
      simp only [insList]
      rw [if_neg (ne_of_gt hx), if_neg (not_lt.mpr hx.le), ih hs.2 hm]

theorem insList_length_of_not_mem (v : α) (xs : List α) (hm : v ∉ xs) :
    (insList v xs).length = xs.length + 1 := by
  induction xs with
  | nil => rfl
  | cons x xs ih =>
    have hvx : v ≠ x := fun hh => hm (by simp [hh])
    simp only [insList]
    rw [if_neg hvx]
    split_ifs
    · simp
    · simp [ih (fun hh => hm (by simp [hh]))]

theorem delList_of_not_mem (v : α) (xs : List α) (hm : v ∉ xs) :
    delList v xs = xs := by
  induction xs with
  | nil => rfl
  | cons x xs ih =>
    simp only [delList]
    rw [if_neg (fun hh => hm (by simp [hh])), ih (fun hh => hm (by simp [hh]))]

theorem delList_sublist (v : α) (xs : List α) : List.Sublist (delList v xs) xs := by
  induction xs with
  | nil => simp [delList]
  | cons x xs ih =>
    simp only [delList]
    split_ifs
    · exact List.sublist_cons_self x xs
    · exact ih.cons₂ x

theorem sorted_delList (v : α) (xs : List α) (hs : List.Sorted (· < ·) xs) :
    List.Sorted (· < ·) (delList v xs) :=
  List.Pairwise.sublist (delList_sublist v xs) hs

theorem mem_delList_ne (v y : α) (xs : List α) (hy : y ≠ v) :
    y ∈ delList v xs ↔ y ∈ xs := by
  induction xs with
  | nil => simp [delList]
  | cons x xs ih =>
    simp only [delList]
    split_ifs with h1
    · subst h1
      simp only [List.mem_cons]
      constructor
      · exact fun hm => Or.inr hm
      · rintro (rfl | hm)
        · exact absurd rfl hy
        · exact hm
    · simp only [List.mem_cons, ih]

theorem not_mem_delList (v : α) (xs : List α) (hs : List.Sorted (· < ·) xs) :
    v ∉ delList v xs := by
  induction xs with
  | nil => simp [delList]
  | cons x xs ih =>
    rw [List.sorted_cons] at hs
    simp only [delList]
    split_ifs with h1
    · subst h1
      intro hm
      exact lt_irrefl v (hs.1 v hm)
    · intro hm
      rcases List.mem_cons.mp hm with rfl | hm
      · exact h1 rfl
      · exact ih hs.2 hm

theorem delList_append_confined (v : α) (xs ys : List α) (hys : ∀ y ∈ ys, v ≠ y) :
    delList v (xs ++ ys) = delList v xs ++ ys := by
  induction xs with
  | nil =>
    simp only [List.nil_append, delList]
    exact delList_of_not_mem v ys (fun hm => hys v hm rfl)
  | cons x xs ih =>
    simp only [List.cons_append, delList]
    split_ifs <;> simp [ih]

theorem delList_append_avoid (v : α) (xs ys : List α) (hxs : ∀ x ∈ xs, v ≠ x) :
    delList v (xs ++ ys) = xs ++ delList v ys := by
  induction xs with
  | nil => rfl
  | cons x xs ih =>
    simp only [List.cons_append, delList, List.append_eq]
    rw [if_neg (hxs x (by simp)), ih (fun y hy => hxs y (by simp [hy]))]

theorem delList_append_self (v : α) (xs ys : List α) (hxs : ∀ x ∈ xs, v ≠ x) :
    delList v (xs ++ v :: ys) = xs ++ ys := by
  rw [delList_append_avoid v xs _ hxs]
  simp [delList]

theorem delList_length_of_mem (v : α) (xs : List α) (hm : v ∈ xs) :
    (delList v xs).length + 1 = xs.length := by
  induction xs with
  | nil => cases hm
  | cons x xs ih =>
    simp only [delList]
    split_ifs with h1
    · simp
    · rcases List.mem_cons.mp hm with rfl | hm
      · exact absurd rfl h1
      · simp only [List.length_cons, ← ih hm]

/-! The in-order characterisation of insert. -/

theorem inOrder_insertAux (t : Tree α) (hs : List.Sorted (· < ·) (inOrder t)) (v : α) :
    inOrder (insertAux t v).2 = insList v (inOrder t) := by
  induction t with
  | nil => rfl
  | node d l r h ihl ihr =>
    obtain ⟨sl, sr, hl, hr⟩ := sorted_node d l r h hs
    simp only [insertAux, inOrder]
    split_ifs with h1 h2
    · subst h1
      rw [insList_append_self v _ _ hl]
      simp [inOrder]
    · rcases hp : insertAux l v with ⟨b, l2⟩
      have hio : inOrder l2 = insList v (inOrder l) := by
        have := ihl sl
        rw [hp] at this
        exact this
      rw [insList_append_lt v d _ _ h2, ← hio]
      cases b <;> simp [inOrder, inOrder_balance]
    · have h3 : d < v := lt_of_le_of_ne (not_lt.mp h2) (Ne.symm h1)
      rcases hp : insertAux r v with ⟨b, r2⟩
      have hio : inOrder r2 = insList v (inOrder r) := by
        have := ihr sr
        rw [hp] at this
        exact this
      rw [insList_append_gt v d _ _ h3 (fun x hx => (hl x hx).trans h3), ← hio]
      cases b <;> simp [inOrder, inOrder_balance]

/-! The minimum of a subtree heads its in-order traversal. -/

theorem treeMin_head (l : Tree α) :
    ∀ (d : α) (r : Tree α) (h : Int),
      ∃ ys, inOrder (Tree.node d l r h) = treeMin d l :: ys := by
  induction l with
  | nil =>
    intro d r h
    exact ⟨inOrder r, by simp [inOrder, treeMin]⟩
  | node d2 l2 r2 h2 ihl ihr =>
    intro d r h
    obtain ⟨ys, hys⟩ := ihl d2 r2 h2
    refine ⟨ys ++ d :: inOrder r, ?_⟩
    simp only [inOrder, treeMin] at hys ⊢
    rw [hys]
    simp

/-! The defining equation of remove at a node, in applied form. -/

theorem removeAux_node (d : α) (l r : Tree α) (h : Int) (v : α) :
    removeAux (Tree.node d l r h) v =
      if v < d then
        ((removeAux l v).1,
          if (removeAux l v).1 then fixup (.node d (removeAux l v).2 r h)
          else .node d (removeAux l v).2 r h)
      else if d < v then
        ((removeAux r v).1,
          if (removeAux r v).1 then fixup (.node d l (removeAux r v).2 h)
          else .node d l (removeAux r v).2 h)
      else
        match l, r with
        | .nil, _ => (true, fixup r)
        | .node ld ll lr lh, .nil => (true, fixup (.node ld ll lr lh))
        | .node ld ll lr lh, .node rd rl rr rh =>
          (true, fixup (.node (treeMin rd rl) (.node ld ll lr lh)
            (removeAux (.node rd rl rr rh) (treeMin rd rl)).2 h)) := by
  rw [removeAux.eq_def]

/-! The boolean returned by remove, and the no-op behaviour on absence. -/

theorem removeAux_fst (t : Tree α) (v : α) : (removeAux t v).1 = contain t v := by
  induction t with
  | nil => rfl
  | node d l r h ihl ihr =>
    rw [removeAux_node]
    simp only [contain]
    rcases lt_trichotomy v d with h1 | h1 | h1
    · rw [if_pos h1, if_neg (ne_of_lt h1), if_pos h1]
      simpa using ihl
    · subst h1
      rw [if_neg (lt_irrefl v), if_neg (lt_irrefl v), if_pos rfl]
      cases l <;> cases r <;> rfl
    · rw [if_neg (not_lt.mpr h1.le), if_pos h1, if_neg (ne_of_gt h1),
        if_neg (not_lt.mpr h1.le)]
      simpa using ihr

theorem removeAux_of_not_contain (t : Tree α) (v : α) (hc : contain t v = false) :
    removeAux t v = (false, t) := by
  induction t with
  | nil => rfl
  | node d l r h ihl ihr =>
    simp only [contain] at hc
    rw [removeAux_node]
    rcases lt_trichotomy v d with h1 | h1 | h1
    · rw [if_neg (ne_of_lt h1), if_pos h1] at hc
      rw [if_pos h1]
      simp [ihl hc]
    · subst h1
      rw [if_pos rfl] at hc
      cases hc
    · rw [if_neg (ne_of_gt h1), if_neg (not_lt.mpr h1.le)] at hc
      rw [if_neg (not_lt.mpr h1.le), if_pos h1]
      simp [ihr hc]

/-! The in-order characterisation of remove. -/

theorem inOrder_removeAux (t : Tree α) (hs : List.Sorted (· < ·) (inOrder t)) (v : α) :
    inOrder (removeAux t v).2 = delList v (inOrder t) := by
  induction t generalizing v with
  | nil => rfl
  | node d l r h ihl ihr =>
    obtain ⟨sl, sr, hl, hr⟩ := sorted_node d l r h hs
    rw [removeAux_node]
    simp only [inOrder]
    rcases lt_trichotomy v d with h1 | h1 | h1
    · rw [if_pos h1]
      have hio : inOrder (removeAux l v).2 = delList v (inOrder l) := ihl sl v
      have hrest : ∀ y ∈ d :: inOrder r, v ≠ y := by
        intro y hy
        rcases List.mem_cons.mp hy with rfl | hy
        · exact ne_of_lt h1
        · exact ne_of_lt (h1.trans (hr y hy))
      rw [delList_append_confined v _ _ hrest, ← hio]
      by_cases hb : (removeAux l v).1 <;> simp [hb, inOrder, inOrder_fixup]
    · subst h1
      rw [if_neg (lt_irrefl v), if_neg (lt_irrefl v)]
      have hxs : ∀ x ∈ inOrder l, v ≠ x := fun x hx => ne_of_gt (hl x hx)
      rw [delList_append_self v _ _ hxs]
      cases l with
      | nil =>
        cases r with
        | nil => simp [inOrder, inOrder_fixup, fixup]
        | node rd rl rr rh => simp [inOrder, inOrder_fixup]
      | node ld ll lr lh =>
        cases r with
        | nil => simp [inOrder, inOrder_fixup]
        | node rd rl rr rh =>
          obtain ⟨ys, hys⟩ := treeMin_head rl rd rr rh
          have hsin : inOrder (removeAux (Tree.node rd rl rr rh) (treeMin rd rl)).2
              = delList (treeMin rd rl) (inOrder (Tree.node rd rl rr rh)) := ihr sr _
          rw [hys] at hsin
          simp [delList] at hsin
          simp only [inOrder] at hys
          simp only [inOrder_fixup, inOrder]
          rw [hsin, hys]
    · have hxs : ∀ x ∈ inOrder l, v ≠ x := fun x hx => ne_of_gt ((hl x hx).trans h1)
      rw [if_neg (not_lt.mpr h1.le), if_pos h1]
      have hio : inOrder (removeAux r v).2 = delList v (inOrder r) := ihr sr v
      rw [delList_append_avoid v _ _ hxs]
      simp only [delList, if_neg (ne_of_gt h1)]
      rw [← hio]
      by_cases hb : (removeAux r v).1 <;> simp [hb, inOrder, inOrder_fixup]

/-! Every reachable state has a strictly sorted in-order traversal. -/

theorem sorted_applyOp (t : Tree α) (ht : List.Sorted (· < ·) (inOrder t)) (op : Op α) :
    List.Sorted (· < ·) (inOrder (applyOp t op)) := by
  cases op with
  | ins v =>
    show List.Sorted (· < ·) (inOrder (insertAux t v).2)
    rw [inOrder_insertAux t ht v]
    exact sorted_insList v _ ht
  | rem v =>
    show List.Sorted (· < ·) (inOrder (removeAux t v).2)
    rw [inOrder_removeAux t ht v]
    exact sorted_delList v _ ht

theorem sorted_foldl (ops : List (Op α)) :
    ∀ t : Tree α, List.Sorted (· < ·) (inOrder t) →
      List.Sorted (· < ·) (inOrder (ops.foldl applyOp t)) := by
  induction ops with
  | nil => exact fun t ht => ht
  | cons op ops ih =>
    intro t ht
    rw [List.foldl_cons]
    exact ih (applyOp t op) (sorted_applyOp t ht op)

theorem sorted_run (ops : List (Op α)) :
    List.Sorted (· < ·) (inOrder (run ops)) :=
  sorted_foldl ops .nil (by simp [inOrder])

theorem sorted_reachable (t : Tree α) (h : Reachable t) :
    List.Sorted (· < ·) (inOrder t) := by
  obtain ⟨ops, rfl⟩ := h
  exact sorted_run ops

/-! A strictly sorted in-order traversal forces the search-tree ordering. -/

theorem allTree_iff (p : α → Prop) (t : Tree α) :
    AllTree p t ↔ ∀ x ∈ inOrder t, p x := by
  induction t with
  | nil => simp [AllTree, inOrder]
  | node d l r h ihl ihr =>
    simp only [AllTree, inOrder, List.mem_append, List.mem_cons, ihl, ihr]
    constructor
    · rintro ⟨hd, hl, hr⟩ x (hx | rfl | hx)
      · exact hl x hx
      · exact hd
      · exact hr x hx
    · intro hall
      exact ⟨hall d (Or.inr (Or.inl rfl)),
        fun x hx => hall x (Or.inl hx),
        fun x hx => hall x (Or.inr (Or.inr hx))⟩

theorem isBST_of_sorted (t : Tree α) (hs : List.Sorted (· < ·) (inOrder t)) :
    IsBST t := by
  induction t with
  | nil => trivial
  | node d l r h ihl ihr =>
    obtain ⟨sl, sr, hl, hr⟩ := sorted_node d l r h hs
    exact ⟨(allTree_iff _ l).mpr hl, (allTree_iff _ r).mpr hr, ihl sl, ihr sr⟩

/-! Length bookkeeping for the round-trip property. -/

theorem length_insertAux (t : Tree α) (hs : List.Sorted (· < ·) (inOrder t)) (v : α) :
    ((inOrder (insertAux t v).2).length : Int)
      = (inOrder t).length + (if (insertAux t v).1 then 1 else 0) := by
  rw [inOrder_insertAux t hs v, insertAux_fst]
  by_cases hm : v ∈ inOrder t
  · rw [insList_of_mem v _ hs hm, (contain_iff_mem t v hs).mpr hm]
    simp
  · have hc : contain t v = false := by
      cases hb : contain t v
      · rfl
      · exact absurd (mem_of_contain t v hb) hm
    rw [insList_length_of_not_mem v _ hm, hc]
    simp only [Bool.not_false, eq_self_iff_true, if_true]
    push_cast
    ring

theorem length_removeAux (t : Tree α) (hs : List.Sorted (· < ·) (inOrder t)) (v : α) :
    ((inOrder (removeAux t v).2).length : Int)
      = (inOrder t).length - (if (removeAux t v).1 then 1 else 0) := by
  rw [inOrder_removeAux t hs v, removeAux_fst]
  by_cases hm : v ∈ inOrder t
  · rw [(contain_iff_mem t v hs).mpr hm]
    have := delList_length_of_mem v _ hm
    simp only [if_pos]
    omega
  · have hc : contain t v = false := by
      cases hb : contain t v
      · rfl
      · exact absurd (mem_of_contain t v hb) hm
    rw [delList_of_not_mem v _ hm, hc]
    simp

theorem length_foldl (ops : List (Op α)) :
    ∀ t : Tree α, List.Sorted (· < ·) (inOrder t) →
      ((inOrder (ops.foldl applyOp t)).length : Int)
        = (inOrder t).length + succIns t ops - succRem t ops := by
  induction ops with
  | nil =>
    intro t ht
    simp [succIns, succRem]
  | cons op ops ih =>
    intro t ht
    rw [List.foldl_cons]
    have hstep := ih (applyOp t op) (sorted_applyOp t ht op)
    cases op with
    | ins v =>
      have hlen := length_insertAux t ht v
      simp only [succIns, succRem, applyOp] at hstep ⊢
      rw [hstep]
      show ((inOrder (insertAux t v).2).length : Int) + _ - _ = _
      rw [hlen]
      by_cases hb : (insertAux t v).1 <;> simp [hb] <;> push_cast <;> ring
    | rem v =>
      have hlen := length_removeAux t ht v
      simp only [succIns, succRem, applyOp] at hstep ⊢
      rw [hstep]
      show ((inOrder (removeAux t v).2).length : Int) + _ - _ = _
      rw [hlen]
      by_cases hb : (removeAux t v).1 <;> simp [hb] <;> push_cast <;> ring

theorem length_run (ops : List (Op α)) :
    ((inOrder (run ops)).length : Int)
      = (succIns Tree.nil ops : Int) - succRem Tree.nil ops := by
  have := length_foldl ops Tree.nil (by simp [inOrder])
  simpa [inOrder, run] using this

/-! A small boolean bridging helper. -/

theorem bool_eq_of_iff {a b : Bool} (h : a = true ↔ b = true) : a = b := by
  cases a <;> cases b <;> simp_all

/-! The claims. -/

/-- C1: the claim that every reachable node caches height equal to
1 + max(height(left), height(right)), with a missing subtree counting as -1,
fails already after insert(10) into the empty tree: the new leaf caches
height 1 while the formula gives 1 + max(-1, -1) = 0.  The TreeNode
constructor initialises the field to 1 (avl.hpp line 287) although the
height helper of the same class returns -1 for null (avl.hpp line 229), so
the code contradicts its own convention; the specification states the
intended formula. -/
theorem claim1_height_formula_fails_at_fresh_leaf :
    run [Op.ins (10 : Int)] = Tree.node 10 .nil .nil 1 ∧
    heightsOk (run [Op.ins (10 : Int)]) = false := by decide

/-- C2: the claim that every reachable state is structurally balanced (the
two subtree heights of every node differ by at most 1, equivalently
is_balanced returns true) fails: after inserting 1, 2, 3, 5, 6, 4 into the
empty tree the root has a left subtree of structural height 2 and a right
subtree of structural height 0, and is_balanced returns false.  The cause
is the same constructor height slip as in C1, which distorts the cached
balance factors that the rebalancing reads. -/
theorem claim2_avl_balance_fails :
    run [Op.ins (1 : Int), Op.ins 2, Op.ins 3, Op.ins 5, Op.ins 6, Op.ins 4]
      = Tree.node 5
          (Tree.node 2 (Tree.node 1 .nil .nil 0)
            (Tree.node 4 (Tree.node 3 .nil .nil 0) .nil 1) 2)
          (Tree.node 6 .nil .nil 1) 3 ∧
    is_balanced
        (run [Op.ins (1 : Int), Op.ins 2, Op.ins 3, Op.ins 5, Op.ins 6, Op.ins 4])
      = false := by decide

/-- C3: every tree state reachable by insert and remove calls from the empty
tree satisfies the search ordering: at every node, all values stored in the
left subtree are strictly below the data of the node and all values stored
in the right subtree strictly above. -/
theorem claim3_bst_invariant (t : Tree Int) (h : Reachable t) : IsBST t :=
  isBST_of_sorted t (sorted_reachable t h)

theorem claim3_bst_invariant_witness :
    IsBST (run [Op.ins (2 : Int), Op.ins 1, Op.ins 3]) :=
  claim3_bst_invariant _ ⟨[Op.ins 2, Op.ins 1, Op.ins 3], rfl⟩

/-- C4: after any sequence of insert and remove calls starting from the
empty tree, in_order lists exactly the currently present values (those that
contain accepts) in strictly ascending order, and its length equals the
number of insert calls that returned true minus the number of remove calls
that returned true. -/
theorem claim4_inorder_roundtrip (ops : List (Op Int)) :
    List.Sorted (· < ·) (inOrder (run ops)) ∧
    (∀ v : Int, contain (run ops) v = true ↔ v ∈ inOrder (run ops)) ∧
    ((inOrder (run ops)).length : Int)
      = (succIns Tree.nil ops : Int) - succRem Tree.nil ops :=
  ⟨sorted_run ops, fun v => contain_iff_mem _ v (sorted_run ops), length_run ops⟩

/-- C5: membership consistency on every reachable state: when insert(x)
returns true, contain(x) is true immediately afterwards, and when remove(x)
returns true, contain(x) is false immediately afterwards. -/
theorem claim5_membership_consistency (t : Tree Int) (h : Reachable t) (x : Int) :
    ((insertAux t x).1 = true → contain (insertAux t x).2 x = true) ∧
    ((removeAux t x).1 = true → contain (removeAux t x).2 x = false) := by
  have hs := sorted_reachable t h
  constructor
  · intro _
    have hs2 : List.Sorted (· < ·) (inOrder (insertAux t x).2) := by
      rw [inOrder_insertAux t hs x]
      exact sorted_insList x _ hs
    rw [contain_iff_mem _ x hs2, inOrder_insertAux t hs x, mem_insList]
    exact Or.inl rfl
  · intro _
    have hnm : x ∉ inOrder (removeAux t x).2 := by
      rw [inOrder_removeAux t hs x]
      exact not_mem_delList x _ hs
    cases hb : contain (removeAux t x).2 x
    · rfl
    · exact absurd (mem_of_contain _ x hb) hnm

theorem claim5_membership_consistency_witness :
    ((insertAux (run [Op.ins (1 : Int)]) 2).1 = true →
      contain (insertAux (run [Op.ins (1 : Int)]) 2).2 2 = true) ∧
    ((removeAux (run [Op.ins (1 : Int)]) 2).1 = true →
      contain (removeAux (run [Op.ins (1 : Int)]) 2).2 2 = false) :=
  claim5_membership_consistency _ ⟨[Op.ins 1], rfl⟩ 2

/-- C6: inserting a value that is already present in a reachable state
returns false and leaves the tree completely unchanged; in particular the
in_order traversal is the same before and after. -/
theorem claim6_duplicate_insert_noop (t : Tree Int) (h : Reachable t) (x : Int)
    (hm : x ∈ inOrder t) :
    insertAux t x = (false, t) ∧ inOrder (insertAux t x).2 = inOrder t := by
  have hs := sorted_reachable t h
  have hc : contain t x = true := (contain_iff_mem t x hs).mpr hm
  have heq := insertAux_of_contain t x hc
  exact ⟨heq, by rw [heq]⟩

theorem claim6_duplicate_insert_noop_witness :
    insertAux (run [Op.ins (5 : Int)]) 5 = (false, run [Op.ins (5 : Int)]) ∧
    inOrder (insertAux (run [Op.ins (5 : Int)]) 5).2 = inOrder (run [Op.ins (5 : Int)]) :=
  claim6_duplicate_insert_noop _ ⟨[Op.ins 5], rfl⟩ 5 (by decide)

/-- C7: removing a value that is absent from a reachable state returns false
and leaves the tree completely unchanged, and calling remove twice with that
value yields false both times with no structural change. -/
theorem claim7_absent_remove_noop (t : Tree Int) (h : Reachable t) (x : Int)
    (hm : x ∉ inOrder t) :
    removeAux t x = (false, t) ∧ removeAux (removeAux t x).2 x = (false, t) := by
  have hc : contain t x = false := by
    cases hb : contain t x
    · rfl
    · exact absurd (mem_of_contain t x hb) hm
  have h1 := removeAux_of_not_contain t x hc
  refine ⟨h1, ?_⟩
  rw [h1]
  exact h1

theorem claim7_absent_remove_noop_witness :
    removeAux (run [Op.ins (1 : Int)]) 7 = (false, run [Op.ins (1 : Int)]) ∧
    removeAux (removeAux (run [Op.ins (1 : Int)]) 7).2 7 = (false, run [Op.ins (1 : Int)]) :=
  claim7_absent_remove_noop _ ⟨[Op.ins 1], rfl⟩ 7 (by decide)

/-- C8: inserting 10, 20, 30 in that order into the empty tree performs
exactly one rotation over the whole sequence, a simple left rotation at the
root (depth 0, recorded by the instrumented runner, which produces the same
tree as run); afterwards in_order is [10, 20, 30], pre_order is
[20, 10, 30], the root holds 20 and is_balanced returns true. -/
theorem claim8_single_left_rotation_scenario :
    (insRunT Tree.nil [(10 : Int), 20, 30]).2 = [(0, Rot.singleLeft)] ∧
    (insRunT Tree.nil [(10 : Int), 20, 30]).1
      = run [Op.ins (10 : Int), Op.ins 20, Op.ins 30] ∧
    inOrder (run [Op.ins (10 : Int), Op.ins 20, Op.ins 30]) = [10, 20, 30] ∧
    preOrder (run [Op.ins (10 : Int), Op.ins 20, Op.ins 30]) = [20, 10, 30] ∧
    rootData (run [Op.ins (10 : Int), Op.ins 20, Op.ins 30]) = some 20 ∧
    is_balanced (run [Op.ins (10 : Int), Op.ins 20, Op.ins 30]) = true := by decide

/-- C9: building from [50, 30, 70, 20, 40, 60, 80] leaves 30, a node with
two children, as the left child of the root; remove(30) reports success and
copies the in-order successor 40 (the minimum of the right subtree of 30)
into that position; afterwards in_order is [20, 40, 50, 60, 70, 80] and
is_balanced returns true. -/
theorem claim9_remove_two_children_scenario :
    run [Op.ins (50 : Int), Op.ins 30, Op.ins 70, Op.ins 20, Op.ins 40,
        Op.ins 60, Op.ins 80]
      = Tree.node 50
          (Tree.node 30 (Tree.node 20 .nil .nil 0) (Tree.node 40 .nil .nil 1) 2)
          (Tree.node 70 (Tree.node 60 .nil .nil 0) (Tree.node 80 .nil .nil 1) 2) 3 ∧
    rootData (leftT (run [Op.ins (50 : Int), Op.ins 30, Op.ins 70, Op.ins 20,
        Op.ins 40, Op.ins 60, Op.ins 80])) = some 30 ∧
    (removeAux (run [Op.ins (50 : Int), Op.ins 30, Op.ins 70, Op.ins 20,
        Op.ins 40, Op.ins 60, Op.ins 80]) 30).1 = true ∧
    rootData (leftT (removeAux (run [Op.ins (50 : Int), Op.ins 30, Op.ins 70,
        Op.ins 20, Op.ins 40, Op.ins 60, Op.ins 80]) 30).2) = some 40 ∧
    inOrder (removeAux (run [Op.ins (50 : Int), Op.ins 30, Op.ins 70, Op.ins 20,
        Op.ins 40, Op.ins 60, Op.ins 80]) 30).2 = [20, 40, 50, 60, 70, 80] ∧
    is_balanced (removeAux (run [Op.ins (50 : Int), Op.ins 30, Op.ins 70,
        Op.ins 20, Op.ins 40, Op.ins 60, Op.ins 80]) 30).2 = true := by decide

/-- C10: frame property on every reachable state: for distinct values x and
y, neither insert(x) nor remove(x) changes the result of contain(y). -/
theorem claim10_frame_contains (t : Tree Int) (h : Reachable t) (x y : Int)
    (hxy : x ≠ y) :
    contain (insertAux t x).2 y = contain t y ∧
    contain (removeAux t x).2 y = contain t y := by
  have hs := sorted_reachable t h
  have hsi : List.Sorted (· < ·) (inOrder (insertAux t x).2) := by
    rw [inOrder_insertAux t hs x]
    exact sorted_insList x _ hs
  have hsr : List.Sorted (· < ·) (inOrder (removeAux t x).2) := by
    rw [inOrder_removeAux t hs x]
    exact sorted_delList x _ hs
  constructor
  · apply bool_eq_of_iff
    rw [contain_iff_mem _ y hsi, contain_iff_mem t y hs, inOrder_insertAux t hs x,
      mem_insList]
    constructor
    · rintro (rfl | hm)
      · exact absurd rfl (Ne.symm hxy)
      · exact hm
    · exact fun hm => Or.inr hm
  · apply bool_eq_of_iff
    rw [contain_iff_mem _ y hsr, contain_iff_mem t y hs, inOrder_removeAux t hs x,
      mem_delList_ne x y _ (Ne.symm hxy)]

theorem claim10_frame_contains_witness :
    contain (insertAux (run [Op.ins (1 : Int), Op.ins 2]) 1).2 2
        = contain (run [Op.ins (1 : Int), Op.ins 2]) 2 ∧
    contain (removeAux (run [Op.ins (1 : Int), Op.ins 2]) 1).2 2
        = contain (run [Op.ins (1 : Int), Op.ins 2]) 2 :=
  claim10_frame_contains _ ⟨[Op.ins 1, Op.ins 2], rfl⟩ 1 2 (by decide)

end AVL
